import Mathlib

/-!
Shallow embedding of the random-tree regression learner (RTLearner.py).

Numeric cells are rationals; numpy NaN is modelled as the missing value of
an optional rational.  Randomness is modelled by an explicit stream of
natural numbers consumed at an explicit position, and the two unbounded
loops of the source (the redraw-until-distinct loop and the recursion of
the tree builder) carry explicit fuel whose exhaustion is reported as the
recursion-limit error that the Python runtime would eventually raise.
-/

/-- Python exception outcomes reachable on the embedded code paths:
an IndexError, a ValueError, the TypeError raised by subscripting None,
and the recursion or iteration limit of the runtime. -/
inductive PyErr where
  | indexError
  | valueError
  | noneSubscript
  | recursionError
  deriving DecidableEq, Repr

/-- A numpy cell: a real number (modelled as a rational) or NaN (none). -/
abbrev EV := Option ℚ

/-- Python sequence indexing: nonnegative indices are plain positions,
negative indices count from the end, and everything out of range is an
IndexError (none). -/
def pyIdx (l : List α) (i : ℤ) : Option α :=
  if 0 ≤ i then l.get? i.toNat
  else if 0 ≤ (l.length : ℤ) + i then l.get? ((l.length : ℤ) + i).toNat
  else none

/-- Python int() on a rational: truncation toward zero. -/
def pyint (q : ℚ) : ℤ := Int.tdiv q.num q.den

/-- The comparison x <= v of the query walk, where the stored cell v may be
NaN: any comparison with NaN is False in Python. -/
def pyLe (x : ℚ) (v : EV) : Bool :=
  match v with
  | none => false
  | some q => decide (x ≤ q)

/-- Distinct values of a list in first-encountered order, with an
accumulator of values already seen.  This is the iteration order of a
Python Counter and the value set of np.unique (only its length is used). -/
def distinctsAux [DecidableEq α] : List α → List α → List α
  | [], _ => []
  | x :: xs, seen =>
    if x ∈ seen then distinctsAux xs seen else x :: distinctsAux xs (x :: seen)

/-- Distinct values of a list in first-encountered order. -/
def distincts [DecidableEq α] (l : List α) : List α := distinctsAux l []

/-- Counter(dataY).most_common(1)[0][0]: the first value of the list whose
multiplicity is maximal (Counter iterates distinct values in insertion
order and most_common sorts stably by descending count, so ties go to the
value encountered first).  On an empty list most_common(1) is empty and
indexing it is an IndexError, modelled as none. -/
def mode (l : List ℚ) : Option ℚ :=
  l.find? (fun x => l.all (fun z => decide (l.count z ≤ l.count x)))

/-- Boolean-mask selection, the content of numpy fancy indexing a[mask]. -/
def maskTake : List Bool → List α → List α
  | true :: ms, x :: xs => x :: maskTake ms xs
  | false :: ms, _ :: xs => maskTake ms xs
  | _, _ => []

/-- numpy boolean indexing a[mask]: an IndexError if the mask length does
not match the array length, otherwise the masked selection. -/
def boolIndex (mask : List Bool) (xs : List α) : Except PyErr (List α) :=
  if mask.length = xs.length then .ok (maskTake mask xs) else .error .indexError

/-- The boolean array dataX[:, f] <= v (one entry per sample row). -/
def leftMask (X : List (List ℚ)) (f : ℕ) (v : ℚ) : List Bool :=
  X.map (fun r => decide (r.getD f 0 ≤ v))

/-- The boolean array dataX[:, f] > v (one entry per sample row). -/
def rightMask (X : List (List ℚ)) (f : ℕ) (v : ℚ) : List Bool :=
  X.map (fun r => decide (v < r.getD f 0))

/-- The degenerate-split test of the source: the candidate split is kept
exactly when len(np.unique(left_index)) != 1. -/
def acceptTest (mask : List Bool) : Bool :=
  decide ((distincts mask).length ≠ 1)

/-- The two np.random.randint(0, n) draws together with the
redraw-while-equal loop of the source (the pair is redrawn as long as the
two row indices coincide and there is more than one sample).  The stream
rho is consumed from position k; the loop carries fuel. -/
def drawPair (rho : ℕ → ℕ) (n : ℕ) : ℕ → ℕ → Except PyErr ((ℕ × ℕ) × ℕ)
  | fuel, k =>
    if n = 0 then .error .valueError
    else
      let r0 := rho k % n
      let r1 := rho (k + 1) % n
      if r0 = r1 ∧ 1 < n then
        match fuel with
        | 0 => .error .recursionError
        | fuel' + 1 => drawPair rho n fuel' (k + 2)
      else .ok ((r0, r1), k + 2)

/-- One numpy array produced by the tree builder: either a single
one-dimensional row (a lone leaf) or a two-dimensional table. -/
inductive Arr where
  | oneD (r : List EV)
  | twoD (t : List (List EV))
  deriving DecidableEq, Repr

/-- The rows of an array viewed as a table (a 1-D row is one row). -/
def toTable : Arr → List (List EV)
  | .oneD r => [r]
  | .twoD t => t

/-- The while-loop of the split search.  The iteration counter equals the
size of the remaining candidate feature pool (the loop variant: each failed
draw removes the drawn feature).  A successful draw stops the search with
the feature, the split value and both partition masks; an emptied pool
yields none. -/
def searchSplitAux (rho : ℕ → ℕ) (X : List (List ℚ)) (pf : ℕ) :
    ℕ → List ℕ → ℕ → Except PyErr (Option (ℕ × ℚ × List Bool × List Bool) × ℕ)
  | _, [], k => .ok (none, k)
  | 0, _ :: _, k => .ok (none, k)
  | iter + 1, p :: ps, k =>
    let pool := p :: ps
    let f := pool.getD (rho k % pool.length) 0
    match drawPair rho X.length pf (k + 1) with
    | .error e => .error e
    | .ok ((r0, r1), k₂) =>
      let v := ((X.getD r0 []).getD f 0 + (X.getD r1 []).getD f 0) / 2
      let mask := leftMask X f v
      let rmask := rightMask X f v
      if acceptTest mask then .ok (some (f, v, mask, rmask), k₂)
      else searchSplitAux rho X pf iter (pool.erase f) k₂

/-- The randomized split search over an initial candidate pool. -/
def searchSplit (rho : ℕ → ℕ) (X : List (List ℚ)) (pf k : ℕ) (pool : List ℕ) :
    Except PyErr (Option (ℕ × ℚ × List Bool × List Bool) × ℕ) :=
  searchSplitAux rho X pf pool.length pool k

/-- The start row of the right subtree stored in the root row: 2 when the
left subtree is a single 1-D row, its row count plus one when it is 2-D. -/
def rightStart : Arr → ℚ
  | .oneD _ => 2
  | .twoD t => ((t.length + 1 : ℕ) : ℚ)

/-- np.vstack((root, lefttree, righttree)): the root row followed by the
rows of the two subtree arrays; a ValueError if any row disagrees with the
column count of the root row. -/
def vstack3 (root : List EV) (l r : Arr) : Except PyErr (List (List EV)) :=
  let rows := root :: (toTable l ++ toTable r)
  if rows.all (fun row => row.length = root.length) then .ok rows
  else .error .valueError

/-- The recursive tree builder __build_tree.  The leaf row
[-1, mode of Y, nan, nan] is computed on entry (an IndexError on an empty
Y); building returns it when the sample count is at most leaf_size or Y
has a single distinct value, or when the split search exhausts the
feature pool.  Otherwise both partitions are built recursively and stacked
under the root row [feature, split, 1, start of right subtree]. -/
def buildFuel : ℕ → ℕ → List (List ℚ) → List ℚ → (ℕ → ℕ) → ℕ → ℕ →
    Except PyErr (Arr × ℕ)
  | 0, _, _, _, _, _, _ => .error .recursionError
  | fuel + 1, ls, X, Y, rho, k, pf =>
    match mode Y with
    | none => .error .indexError
    | some m =>
      if X.length ≤ ls ∨ (distincts Y).length = 1 then
        .ok (.oneD [some (-1), some m, none, none], k)
      else
        match searchSplit rho X pf k (List.range (X.headD []).length) with
        | .error e => .error e
        | .ok (none, k₁) => .ok (.oneD [some (-1), some m, none, none], k₁)
        | .ok (some (f, v, mask, rmask), k₁) =>
          match boolIndex mask X with
          | .error e => .error e
          | .ok XL =>
            match boolIndex mask Y with
            | .error e => .error e
            | .ok YL =>
              match boolIndex rmask X with
              | .error e => .error e
              | .ok XR =>
                match boolIndex rmask Y with
                | .error e => .error e
                | .ok YR =>
                  match buildFuel fuel ls XL YL rho k₁ pf with
                  | .error e => .error e
                  | .ok (lt, k₂) =>
                    match buildFuel fuel ls XR YR rho k₂ pf with
                    | .error e => .error e
                    | .ok (rt, k₃) =>
                      match vstack3 [some ((f : ℕ) : ℚ), some v, some 1,
                          some (rightStart lt)] lt rt with
                      | .error e => .error e
                      | .ok tbl => .ok (.twoD tbl, k₃)

/-- The tree denoted by a well-formed tree table: a leaf carries the value
stored in its row, an internal node carries a feature index and a split
value. -/
inductive RTree where
  | leaf (v : ℚ)
  | node (f : ℕ) (v : ℚ) (l r : RTree)
  deriving DecidableEq, Repr

/-- The pre-order table layout of the data model: a node row
[feature, split, 1, rows of left subtree + 1] immediately followed by the
whole left subtree and then the whole right subtree; a leaf is the single
row [-1, value, nan, nan]. -/
def flatten : RTree → List (List EV)
  | .leaf v => [[some (-1), some v, none, none]]
  | .node f v l r =>
    [some ((f : ℕ) : ℚ), some v, some 1, some (((flatten l).length + 1 : ℕ) : ℚ)] ::
      (flatten l ++ flatten r)

/-- Number of leaves of a tree. -/
def numLeaves : RTree → ℕ
  | .leaf _ => 1
  | .node _ _ l r => numLeaves l + numLeaves r

/-- Height of a tree (a lone leaf has height 0). -/
def height : RTree → ℕ
  | .leaf _ => 0
  | .node _ _ l r => max (height l) (height r) + 1

/-- Every feature index stored in the tree is below d (the query-point
dimensionality needed to walk the tree). -/
def featBound : RTree → ℕ → Bool
  | .leaf _, _ => true
  | .node f _ l r, d => decide (f < d) && featBound l d && featBound r d

/-- The learner facade: a leaf size and an optional owned tree array. -/
structure Learner where
  leaf_size : ℕ
  tree : Option Arr
  deriving DecidableEq, Repr

/-- The recursive table walk __tree_search from a row index, with fuel for
the runtime recursion limit.  Each step reads the first two cells of the
current row, returns the second on a leaf sentinel, and otherwise follows
the left or right row offset depending on the comparison of the point
coordinate with the split value. -/
def treeSearch (t : List (List EV)) (p : List ℚ) : ℤ → ℕ → Except PyErr EV
  | _, 0 => .error .recursionError
  | row, fuel + 1 =>
    match pyIdx t row with
    | none => .error .indexError
    | some r =>
      match r.get? 0, r.get? 1 with
      | some feat, some sval =>
        match feat with
        | none => .error .valueError
        | some fq =>
          if fq = -1 then .ok sval
          else
            match pyIdx p (pyint fq) with
            | none => .error .indexError
            | some px =>
              if pyLe px sval then
                match r.get? 2 with
                | some (some oq) => treeSearch t p (row + pyint oq) fuel
                | some none => .error .valueError
                | none => .error .indexError
              else
                match r.get? 3 with
                | some (some oq) => treeSearch t p (row + pyint oq) fuel
                | some none => .error .valueError
                | none => .error .indexError
      | _, _ => .error .valueError

/-- np.vstack((self.tree, new_tree)): the rows of the owned array followed
by the rows of the new one; a ValueError when the column counts disagree. -/
def vstack2 (a b : Arr) : Except PyErr (List (List EV)) :=
  match toTable a ++ toTable b with
  | [] => .error .valueError
  | r :: rs => if rs.all (fun row => row.length = r.length) then .ok (r :: rs)
               else .error .valueError

/-- np.expand_dims(tree, axis=0) applied when the owned tree is a single
1-D row, turning it into a 1-by-n table. -/
def expandIf1D : Arr → Arr
  | .oneD r => .twoD [r]
  | a => a

/-- addEvidence: build a tree from the training data; assign it if the
learner owns none, otherwise stack it under the owned tree; finally expand
a lone 1-D row into a 1-row table. -/
def addEvidence (L : Learner) (X : List (List ℚ)) (Y : List ℚ) (rho : ℕ → ℕ)
    (k fuel pf : ℕ) : Except PyErr (Learner × ℕ) :=
  match buildFuel fuel L.leaf_size X Y rho k pf with
  | .error e => .error e
  | .ok (nt, k₁) =>
    match L.tree with
    | none => .ok ({L with tree := some (expandIf1D nt)}, k₁)
    | some old =>
      match vstack2 old nt with
      | .error e => .error e
      | .ok rows => .ok ({L with tree := some (expandIf1D (.twoD rows))}, k₁)

/-- query: walk each point from row 0 of the owned tree, in order.  The
first point of a batch touches self.tree, so an absent tree (None) is the
TypeError of subscripting None, and a 1-D owned row is an IndexError of
2-D indexing; an empty batch never reads the tree. -/
def query (L : Learner) : List (List ℚ) → ℕ → Except PyErr (List EV)
  | [], _ => .ok []
  | p :: ps, fuel =>
    match L.tree with
    | none => .error .noneSubscript
    | some (.oneD _) => .error .indexError
    | some (.twoD t) =>
      match treeSearch t p 0 fuel with
      | .error e => .error e
      | .ok v =>
        match query L ps fuel with
        | .error e => .error e
        | .ok vs => .ok (v :: vs)

example : mode [1, 2, 2, 1] = some 1 := by with_unfolding_all rfl
example : mode [1, 2, 2] = some 2 := by with_unfolding_all rfl
example : mode ([] : List ℚ) = none := by rfl
example : acceptTest [true, false] = true := by rfl
example : acceptTest [true, true] = false := by rfl
example :
    buildFuel 3 1 [[0], [1]] [0, 1] (fun i => i) 0 1 =
      .ok (.twoD [[some 0, some (1/2), some 1, some 2],
                  [some (-1), some 0, none, none],
                  [some (-1), some 1, none, none]], 3) := by with_unfolding_all rfl
example :
    buildFuel 3 1 [[0], [1]] [0, 1] (fun i => i) 0 1 =
      .ok (.twoD (flatten (.node 0 (1/2) (.leaf 0) (.leaf 1))), 3) := by
  with_unfolding_all rfl
example :
    treeSearch (flatten (.node 0 (1/2) (.leaf 7) (.leaf 9))) [3] 0 5 = .ok (some 9) := by
  with_unfolding_all rfl
example :
    treeSearch (flatten (.node 0 (1/2) (.leaf 7) (.leaf 9))) [0] 0 5 = .ok (some 7) := by
  with_unfolding_all rfl
example : query ⟨1, none⟩ [] 5 = .ok [] := by rfl
example : query ⟨1, none⟩ [[1]] 5 = .error .noneSubscript := by rfl

/-! Basic facts about distinct values, masks and partitions. -/

lemma distinctsAux_eq_nil_iff [DecidableEq α] (l : List α) :
    ∀ seen : List α, (distinctsAux l seen = [] ↔ ∀ a ∈ l, a ∈ seen) := by
  induction l with
  | nil => intro seen; simp [distinctsAux]
  | cons x xs ih =>
    intro seen
    rw [distinctsAux]
    by_cases hx : x ∈ seen
    · rw [if_pos hx, ih]
      simp [hx]
    · rw [if_neg hx]
      simp [hx]

lemma distincts_length_eq_one_iff [DecidableEq α] (l : List α) (hl : l ≠ []) :
    (distincts l).length = 1 ↔ ∀ a ∈ l, ∀ b ∈ l, a = b := by
  cases l with
  | nil => exact absurd rfl hl
  | cons x xs =>
    rw [distincts, distinctsAux, if_neg (List.not_mem_nil x)]
    have h1 : (x :: distinctsAux xs [x]).length = 1 ↔ distinctsAux xs [x] = [] := by
      simp [List.length_eq_zero]
    rw [h1, distinctsAux_eq_nil_iff]
    simp only [List.mem_singleton]
    constructor
    · intro h a ha b hb
      have hax : a = x := by
        rcases List.mem_cons.mp ha with h1 | h1
        · exact h1
        · exact h a h1
      have hbx : b = x := by
        rcases List.mem_cons.mp hb with h1 | h1
        · exact h1
        · exact h b h1
      rw [hax, hbx]
    · intro h a ha
      exact h a (List.mem_cons_of_mem x ha) x (List.mem_cons_self x xs)

lemma maskTake_map_eq_filter (p : α → Bool) :
    ∀ l : List α, maskTake (l.map p) l = l.filter p := by
  intro l
  induction l with
  | nil => rfl
  | cons x xs ih =>
    rw [List.map_cons]
    cases hp : p x
    · rw [show maskTake (false :: List.map p xs) (x :: xs) = maskTake (List.map p xs) xs
        from rfl, ih]
      simp [List.filter_cons, hp]
    · rw [show maskTake (true :: List.map p xs) (x :: xs) = x :: maskTake (List.map p xs) xs
        from rfl, ih]
      simp [List.filter_cons, hp]

lemma length_filter_add_length_filter (p q : α → Bool) (hpq : ∀ x, q x = !p x) :
    ∀ l : List α, (l.filter p).length + (l.filter q).length = l.length := by
  intro l
  induction l with
  | nil => rfl
  | cons x xs ih =>
    have hq := hpq x
    cases hp : p x
    · rw [hp] at hq
      simp [List.filter_cons, hp, hq]
      omega
    · rw [hp] at hq
      simp [List.filter_cons, hp, hq]
      omega

lemma decide_lt_eq_not_decide_le (v x : ℚ) : decide (v < x) = !decide (x ≤ v) := by
  by_cases h : x ≤ v
  · simp [h, not_lt.mpr h]
  · simp [h, not_le.mp h]

lemma getD_mem {l : List α} {i : ℕ} (h : i < l.length) (d : α) : l.getD i d ∈ l := by
  rw [List.getD_eq_getElem?_getD, List.getElem?_eq_getElem h]
  simp [List.getElem_mem h]

lemma filter_ne_nil_iff (p : α → Bool) (l : List α) :
    l.filter p ≠ [] ↔ ∃ x ∈ l, p x = true := by
  constructor
  · intro h
    by_contra hc
    push_neg at hc
    exact h (List.filter_eq_nil_iff.mpr (fun a ha => by simp [hc a ha]))
  · rintro ⟨x, hx, hpx⟩ hnil
    have hx2 := List.filter_eq_nil_iff.mp hnil x hx
    simp [hpx] at hx2

lemma acceptTest_iff_partitions (X : List (List ℚ)) (f : ℕ) (v : ℚ) (hX : X ≠ []) :
    acceptTest (leftMask X f v) = true ↔
      (maskTake (leftMask X f v) X ≠ [] ∧ maskTake (rightMask X f v) X ≠ []) := by
  have hmask : leftMask X f v ≠ [] := by
    cases X with
    | nil => exact absurd rfl hX
    | cons r rs => simp [leftMask]
  have hL : maskTake (leftMask X f v) X = X.filter (fun r => decide (r.getD f 0 ≤ v)) :=
    maskTake_map_eq_filter _ X
  have hR : maskTake (rightMask X f v) X = X.filter (fun r => decide (v < r.getD f 0)) :=
    maskTake_map_eq_filter _ X
  rw [hL, hR, acceptTest, decide_eq_true_eq, Ne, distincts_length_eq_one_iff _ hmask,
    filter_ne_nil_iff, filter_ne_nil_iff]
  constructor
  · intro h
    have h2 : ∃ a ∈ leftMask X f v, ∃ b ∈ leftMask X f v, a ≠ b := by
      by_contra hc
      push_neg at hc
      exact h hc
    obtain ⟨a, ha, b, hb, hab⟩ := h2
    have htf : true ∈ leftMask X f v ∧ false ∈ leftMask X f v := by
      cases a <;> cases b
      · exact absurd rfl hab
      · exact ⟨hb, ha⟩
      · exact ⟨ha, hb⟩
      · exact absurd rfl hab
    obtain ⟨r1, hr1, h1⟩ := List.mem_map.mp htf.1
    obtain ⟨r2, hr2, h2'⟩ := List.mem_map.mp htf.2
    refine ⟨⟨r1, hr1, h1⟩, ⟨r2, hr2, ?_⟩⟩
    rw [decide_lt_eq_not_decide_le, h2']
    rfl
  · rintro ⟨⟨r1, hr1, h1⟩, ⟨r2, hr2, h2⟩⟩ hall
    have hf : decide (r2.getD f 0 ≤ v) = false := by
      rcases Bool.eq_false_or_eq_true (decide (r2.getD f 0 ≤ v)) with hc | hc
      · rw [decide_lt_eq_not_decide_le, hc] at h2
        simp at h2
      · exact hc
    have hta : true ∈ leftMask X f v := List.mem_map.mpr ⟨r1, hr1, h1⟩
    have hfa : false ∈ leftMask X f v := List.mem_map.mpr ⟨r2, hr2, hf⟩
    exact absurd (hall true hta false hfa) (by simp)

lemma drawPair_ok_pos {rho : ℕ → ℕ} {n fuel k : ℕ} {pr : ℕ × ℕ} {k₂ : ℕ}
    (h : drawPair rho n fuel k = .ok (pr, k₂)) : 0 < n := by
  rcases Nat.eq_zero_or_pos n with hn | hn
  · subst hn
    rw [drawPair.eq_def] at h
    simp at h
  · exact hn

lemma searchSplitAux_some (rho : ℕ → ℕ) (X : List (List ℚ)) (pf : ℕ) :
    ∀ (iter : ℕ) (pool : List ℕ) (k : ℕ) (f : ℕ) (v : ℚ)
      (mask rmask : List Bool) (k₂ : ℕ),
      searchSplitAux rho X pf iter pool k = .ok (some (f, v, mask, rmask), k₂) →
      f ∈ pool ∧ mask = leftMask X f v ∧ rmask = rightMask X f v ∧
        acceptTest mask = true ∧ 0 < X.length := by
  intro iter
  induction iter with
  | zero =>
    intro pool k f v mask rmask k₂ h
    cases pool with
    | nil => simp [searchSplitAux] at h
    | cons p ps => simp [searchSplitAux] at h
  | succ n ih =>
    intro pool k f v mask rmask k₂ h
    cases pool with
    | nil => simp [searchSplitAux] at h
    | cons p ps =>
      simp only [searchSplitAux] at h
      cases hd : drawPair rho X.length pf (k + 1) with
      | error e =>
        rw [hd] at h
        simp at h
      | ok pk =>
        obtain ⟨⟨r0, r1⟩, k₃⟩ := pk
        rw [hd] at h
        simp only at h
        set F := (p :: ps).getD (rho k % (p :: ps).length) 0 with hF
        set V := ((X.getD r0 []).getD F 0 + (X.getD r1 []).getD F 0) / 2 with hV
        by_cases hacc : acceptTest (leftMask X F V) = true
        · rw [if_pos hacc] at h
          simp only [Except.ok.injEq, Prod.mk.injEq, Option.some.injEq] at h
          obtain ⟨⟨hf, hv, hm, hrm⟩, hk⟩ := h
          subst hf
          subst hv
          subst hm
          subst hrm
          refine ⟨?_, rfl, rfl, hacc, drawPair_ok_pos hd⟩
          exact getD_mem (Nat.mod_lt _ (by simp)) 0
        · rw [if_neg hacc] at h
          obtain ⟨hmem, hrest⟩ := ih ((p :: ps).erase F) k₃ f v mask rmask k₂ h
          exact ⟨List.mem_of_mem_erase hmem, hrest⟩

lemma searchSplit_some {rho : ℕ → ℕ} {X : List (List ℚ)} {pf k : ℕ} {pool : List ℕ}
    {f : ℕ} {v : ℚ} {mask rmask : List Bool} {k₂ : ℕ}
    (h : searchSplit rho X pf k pool = .ok (some (f, v, mask, rmask), k₂)) :
    f ∈ pool ∧ mask = leftMask X f v ∧ rmask = rightMask X f v ∧
      acceptTest mask = true ∧ 0 < X.length :=
  searchSplitAux_some rho X pf pool.length pool k f v mask rmask k₂ h

/-! Facts about the flattened pre-order layout. -/

lemma flatten_ne_nil (tr : RTree) : flatten tr ≠ [] := by
  cases tr <;> simp [flatten]

lemma numLeaves_pos (tr : RTree) : 1 ≤ numLeaves tr := by
  induction tr with
  | leaf v => simp [numLeaves]
  | node f v l r ihl ihr => simp only [numLeaves]; omega

lemma flatten_length (tr : RTree) : (flatten tr).length + 1 = 2 * numLeaves tr := by
  induction tr with
  | leaf v => simp [flatten, numLeaves]
  | node f v l r ihl ihr =>
    simp only [flatten, numLeaves, List.length_cons, List.length_append]
    omega

lemma flatten_rows_len (tr : RTree) : ∀ r ∈ flatten tr, r.length = 4 := by
  induction tr with
  | leaf v =>
    intro r hr
    simp only [flatten, List.mem_singleton] at hr
    subst hr
    rfl
  | node f v l r ihl ihr =>
    intro row hrow
    simp only [flatten, List.mem_cons, List.mem_append] at hrow
    rcases hrow with h | h | h
    · subst h; rfl
    · exact ihl row h
    · exact ihr row h

lemma boolIndex_ok {mask : List Bool} {xs l : List α}
    (h : boolIndex mask xs = .ok l) : l = maskTake mask xs ∧ mask.length = xs.length := by
  rw [boolIndex] at h
  by_cases hl : mask.length = xs.length
  · rw [if_pos hl] at h
    injection h with h1
    exact ⟨h1.symm, hl⟩
  · rw [if_neg hl] at h
    exact absurd h (by simp)

lemma vstack3_ok {root : List EV} {l r : Arr} {tbl : List (List EV)}
    (h : vstack3 root l r = .ok tbl) : tbl = root :: (toTable l ++ toTable r) := by
  simp only [vstack3] at h
  by_cases hall :
      (root :: (toTable l ++ toTable r)).all (fun row => row.length = root.length) = true
  · rw [if_pos hall] at h
    injection h with h1
    exact h1.symm
  · rw [if_neg hall] at h
    exact absurd h (by simp)

lemma roff_eq (lt : Arr) (trL : RTree) (h : toTable lt = flatten trL) :
    rightStart lt = (((flatten trL).length + 1 : ℕ) : ℚ) := by
  cases lt with
  | oneD r0 =>
    have hlen : (flatten trL).length = 1 := by rw [← h]; rfl
    show (2 : ℚ) = (((flatten trL).length + 1 : ℕ) : ℚ)
    rw [hlen]
    norm_num
  | twoD t =>
    have ht : t = flatten trL := h
    show ((t.length + 1 : ℕ) : ℚ) = (((flatten trL).length + 1 : ℕ) : ℚ)
    rw [ht]

/-- Every successful build yields the flattening of a tree; the stored
feature indices respect the column count of a rectangular training matrix;
the number of leaves is bounded by the number of samples; and the height
plus one is bounded by the number of samples when leaf_size is positive. -/
lemma buildFuel_ok_shape :
    ∀ (fuel ls : ℕ) (X : List (List ℚ)) (Y : List ℚ) (rho : ℕ → ℕ) (k pf : ℕ)
      (a : Arr) (k' : ℕ),
      buildFuel fuel ls X Y rho k pf = .ok (a, k') →
      ∃ tr : RTree, toTable a = flatten tr ∧
        (∀ w, (∀ r ∈ X, r.length = w) → featBound tr w = true) ∧
        (1 ≤ X.length → numLeaves tr ≤ X.length) ∧
        (1 ≤ X.length → 1 ≤ ls → height tr + 1 ≤ X.length) := by
  intro fuel
  induction fuel with
  | zero =>
    intro ls X Y rho k pf a k' h
    simp [buildFuel] at h
  | succ fuel ih =>
    intro ls X Y rho k pf a k' h
    simp only [buildFuel] at h
    cases hm : mode Y with
    | none => rw [hm] at h; simp at h
    | some m =>
      rw [hm] at h
      simp only at h
      by_cases hleaf : X.length ≤ ls ∨ (distincts Y).length = 1
      · rw [if_pos hleaf] at h
        simp only [Except.ok.injEq, Prod.mk.injEq] at h
        obtain ⟨ha, hk⟩ := h
        subst ha
        exact ⟨.leaf m, rfl, fun w hw => rfl, fun hn => hn, fun hn hls => hn⟩
      · rw [if_neg hleaf] at h
        have hXpos : 0 < X.length := by
          rcases not_or.mp hleaf with ⟨h1, _⟩
          omega
        have hXne : X ≠ [] := by
          cases X with
          | nil => simp at hXpos
          | cons x xs => simp
        cases hs : searchSplit rho X pf k (List.range (X.headD []).length) with
        | error e => rw [hs] at h; simp at h
        | ok res =>
          obtain ⟨opt, k₁⟩ := res
          rw [hs] at h
          cases opt with
          | none =>
            simp only [Except.ok.injEq, Prod.mk.injEq] at h
            obtain ⟨ha, hk⟩ := h
            subst ha
            exact ⟨.leaf m, rfl, fun w hw => rfl, fun hn => hn, fun hn hls => hn⟩
          | some quad =>
            obtain ⟨f, v, mask, rmask⟩ := quad
            simp only at h
            obtain ⟨hfpool, hmask, hrmask, hacc, _⟩ := searchSplit_some hs
            cases hbx : boolIndex mask X with
            | error e => rw [hbx] at h; simp at h
            | ok XL =>
              rw [hbx] at h
              simp only at h
              cases hby : boolIndex mask Y with
              | error e => rw [hby] at h; simp at h
              | ok YL =>
                rw [hby] at h
                simp only at h
                cases hbx2 : boolIndex rmask X with
                | error e => rw [hbx2] at h; simp at h
                | ok XR =>
                  rw [hbx2] at h
                  simp only at h
                  cases hby2 : boolIndex rmask Y with
                  | error e => rw [hby2] at h; simp at h
                  | ok YR =>
                    rw [hby2] at h
                    simp only at h
                    cases hbl : buildFuel fuel ls XL YL rho k₁ pf with
                    | error e => rw [hbl] at h; simp at h
                    | ok resL =>
                      obtain ⟨lt, k₂⟩ := resL
                      rw [hbl] at h
                      simp only at h
                      cases hbr : buildFuel fuel ls XR YR rho k₂ pf with
                      | error e => rw [hbr] at h; simp at h
                      | ok resR =>
                        obtain ⟨rt, k₃⟩ := resR
                        rw [hbr] at h
                        simp only at h
                        obtain ⟨trL, htL, hfbL, hnlL, hhtL⟩ :=
                          ih ls XL YL rho k₁ pf lt k₂ hbl
                        obtain ⟨trR, htR, hfbR, hnlR, hhtR⟩ :=
                          ih ls XR YR rho k₂ pf rt k₃ hbr
                        rw [roff_eq lt trL htL] at h
                        cases hv3 : vstack3
                            [some ((f : ℕ) : ℚ), some v, some 1,
                              some (((flatten trL).length + 1 : ℕ) : ℚ)] lt rt with
                        | error e => rw [hv3] at h; simp at h
                        | ok tbl =>
                          rw [hv3] at h
                          simp only [Except.ok.injEq, Prod.mk.injEq] at h
                          obtain ⟨ha, hk⟩ := h
                          subst ha
                          have hXL : XL = X.filter (fun r => decide (r.getD f 0 ≤ v)) := by
                            rw [(boolIndex_ok hbx).1, hmask, leftMask]
                            exact maskTake_map_eq_filter _ X
                          have hXR : XR = X.filter (fun r => decide (v < r.getD f 0)) := by
                            rw [(boolIndex_ok hbx2).1, hrmask, rightMask]
                            exact maskTake_map_eq_filter _ X
                          have hsum : XL.length + XR.length = X.length := by
                            rw [hXL, hXR]
                            exact length_filter_add_length_filter _ _
                              (fun x => decide_lt_eq_not_decide_le v (x.getD f 0)) X
                          have hparts := (acceptTest_iff_partitions X f v hXne).mp
                            (by rw [← hmask]; exact hacc)
                          have hXLne : XL ≠ [] := by
                            rw [(boolIndex_ok hbx).1, hmask]
                            exact hparts.1
                          have hXRne : XR ≠ [] := by
                            rw [(boolIndex_ok hbx2).1, hrmask]
                            exact hparts.2
                          have hXLpos : 1 ≤ XL.length := List.length_pos.mpr hXLne
                          have hXRpos : 1 ≤ XR.length := List.length_pos.mpr hXRne
                          refine ⟨.node f v trL trR, ?_, ?_, ?_, ?_⟩
                          · show toTable (Arr.twoD tbl) = flatten (.node f v trL trR)
                            have h0 : toTable (Arr.twoD tbl) = tbl := rfl
                            rw [h0, vstack3_ok hv3, htL, htR]
                            rfl
                          · intro w hw
                            have hxmem : X.headD [] ∈ X := by
                              obtain ⟨x, xs, hXeq⟩ := List.exists_cons_of_ne_nil hXne
                              rw [hXeq]
                              simp
                            have hfw : f < w := by
                              have h1 := List.mem_range.mp hfpool
                              rw [hw _ hxmem] at h1
                              exact h1
                            simp only [featBound, Bool.and_eq_true, decide_eq_true_eq]
                            refine ⟨⟨hfw, ?_⟩, ?_⟩
                            · exact hfbL w (fun r hr => hw r (by
                                rw [hXL] at hr
                                exact List.mem_of_mem_filter hr))
                            · exact hfbR w (fun r hr => hw r (by
                                rw [hXR] at hr
                                exact List.mem_of_mem_filter hr))
                          · intro hn
                            have h1 := hnlL hXLpos
                            have h2 := hnlR hXRpos
                            simp only [numLeaves]
                            omega
                          · intro hn hls
                            have h1 := hhtL hXLpos hls
                            have h2 := hhtR hXRpos hls
                            simp only [height]
                            cases Nat.le_total (height trL) (height trR) with
                            | inl h3 => rw [Nat.max_eq_right h3]; omega
                            | inr h3 => rw [Nat.max_eq_left h3]; omega

/-! Facts about the table walk. -/

lemma pyint_natCast (n : ℕ) : pyint ((n : ℕ) : ℚ) = (n : ℤ) := by
  rw [pyint]
  simp [Rat.num_natCast, Rat.den_natCast]

lemma pyint_one : pyint (1 : ℚ) = 1 := by rfl

lemma pyIdx_natCast (l : List α) (n : ℕ) : pyIdx l ((n : ℕ) : ℤ) = l.get? n := by
  rw [pyIdx, if_pos (Int.natCast_nonneg n)]
  simp

lemma get?_append_self (pre l : List α) : (pre ++ l).get? pre.length = l.get? 0 := by
  rw [List.get?_append_right (le_refl _), Nat.sub_self]

lemma pyIdx_at_head (pre : List α) (x : α) (rest : List α) :
    pyIdx (pre ++ (x :: rest)) ((pre.length : ℕ) : ℤ) = some x := by
  rw [pyIdx_natCast, get?_append_self]
  rfl

lemma natCast_ne_neg_one (n : ℕ) : ((n : ℕ) : ℚ) ≠ -1 := by
  intro h
  have h0 : (0 : ℚ) ≤ (n : ℚ) := Nat.cast_nonneg n
  rw [h] at h0
  norm_num at h0

lemma treeSearch_leaf_step (t : List (List EV)) (p : List ℚ) (i : ℤ) (fuel : ℕ) (v : ℚ)
    (hrow : pyIdx t i = some [some (-1), some v, none, none]) :
    treeSearch t p i (fuel + 1) = .ok (some v) := by
  simp only [treeSearch]
  rw [hrow]
  simp

lemma treeSearch_node_step (t : List (List EV)) (p : List ℚ) (i : ℤ) (fuel : ℕ)
    (f : ℕ) (v q2 q3 : ℚ)
    (hrow : pyIdx t i = some [some ((f : ℕ) : ℚ), some v, some q2, some q3]) :
    treeSearch t p i (fuel + 1) =
      (match pyIdx p ((f : ℕ) : ℤ) with
        | none => .error .indexError
        | some px =>
          if px ≤ v then treeSearch t p (i + pyint q2) fuel
          else treeSearch t p (i + pyint q3) fuel) := by
  simp only [treeSearch]
  rw [hrow]
  simp only [List.get?]
  rw [if_neg (natCast_ne_neg_one f), pyint_natCast]
  cases hpx : pyIdx p ((f : ℕ) : ℤ) with
  | none => simp
  | some px =>
    by_cases hc : px ≤ v
    · simp [pyLe, hc]
    · simp [pyLe, hc]

/-- Appended rows after a flattened tree are never reached: the walk that
starts at the root row of the flattened tree gives the same outcome for any
rows stacked below it. -/
lemma treeSearch_ext (p : List ℚ) :
    ∀ (tr : RTree) (pre ext₁ ext₂ : List (List EV)) (fuel : ℕ),
      treeSearch (pre ++ (flatten tr ++ ext₁)) p ((pre.length : ℕ) : ℤ) fuel =
        treeSearch (pre ++ (flatten tr ++ ext₂)) p ((pre.length : ℕ) : ℤ) fuel := by
  intro tr
  induction tr with
  | leaf v =>
    intro pre ext₁ ext₂ fuel
    cases fuel with
    | zero => rfl
    | succ fuel =>
      have e₁ : pre ++ (flatten (RTree.leaf v) ++ ext₁) =
          pre ++ ([some (-1), some v, none, none] :: ext₁) := rfl
      have e₂ : pre ++ (flatten (RTree.leaf v) ++ ext₂) =
          pre ++ ([some (-1), some v, none, none] :: ext₂) := rfl
      rw [e₁, e₂, treeSearch_leaf_step _ _ _ _ v (pyIdx_at_head pre _ ext₁),
        treeSearch_leaf_step _ _ _ _ v (pyIdx_at_head pre _ ext₂)]
  | node f v l r ihl ihr =>
    intro pre ext₁ ext₂ fuel
    cases fuel with
    | zero => rfl
    | succ fuel =>
      have e₁ : pre ++ (flatten (RTree.node f v l r) ++ ext₁) =
          pre ++ ([some ((f : ℕ) : ℚ), some v, some 1,
            some (((flatten l).length + 1 : ℕ) : ℚ)] ::
              ((flatten l ++ flatten r) ++ ext₁)) := rfl
      have e₂ : pre ++ (flatten (RTree.node f v l r) ++ ext₂) =
          pre ++ ([some ((f : ℕ) : ℚ), some v, some 1,
            some (((flatten l).length + 1 : ℕ) : ℚ)] ::
              ((flatten l ++ flatten r) ++ ext₂)) := rfl
      rw [e₁, e₂, treeSearch_node_step _ _ _ _ f v _ _ (pyIdx_at_head pre _ _),
        treeSearch_node_step _ _ _ _ f v _ _ (pyIdx_at_head pre _ _)]
      cases hpx : pyIdx p ((f : ℕ) : ℤ) with
      | none => rfl
      | some px =>
        simp only []
        by_cases hc : px ≤ v
        · rw [if_pos hc, if_pos hc, pyint_one]
          have hidx : ((pre.length : ℕ) : ℤ) + 1 =
              (((pre ++ [[some ((f : ℕ) : ℚ), some v, some 1,
                some (((flatten l).length + 1 : ℕ) : ℚ)]]).length : ℕ) : ℤ) := by
            simp [List.length_append]
          have g₁ : pre ++ ([some ((f : ℕ) : ℚ), some v, some 1,
              some (((flatten l).length + 1 : ℕ) : ℚ)] ::
                ((flatten l ++ flatten r) ++ ext₁)) =
              (pre ++ [[some ((f : ℕ) : ℚ), some v, some 1,
                some (((flatten l).length + 1 : ℕ) : ℚ)]]) ++
                (flatten l ++ (flatten r ++ ext₁)) := by
            simp [List.append_assoc]
          have g₂ : pre ++ ([some ((f : ℕ) : ℚ), some v, some 1,
              some (((flatten l).length + 1 : ℕ) : ℚ)] ::
                ((flatten l ++ flatten r) ++ ext₂)) =
              (pre ++ [[some ((f : ℕ) : ℚ), some v, some 1,
                some (((flatten l).length + 1 : ℕ) : ℚ)]]) ++
                (flatten l ++ (flatten r ++ ext₂)) := by
            simp [List.append_assoc]
          rw [g₁, g₂, hidx]
          exact ihl _ (flatten r ++ ext₁) (flatten r ++ ext₂) fuel
        · rw [if_neg hc, if_neg hc, pyint_natCast]
          have hidx : ((pre.length : ℕ) : ℤ) + (((flatten l).length + 1 : ℕ) : ℤ) =
              (((pre ++ ([some ((f : ℕ) : ℚ), some v, some 1,
                some (((flatten l).length + 1 : ℕ) : ℚ)] ::
                  flatten l)).length : ℕ) : ℤ) := by
            simp [List.length_append, List.length_cons]
          have g₁ : pre ++ ([some ((f : ℕ) : ℚ), some v, some 1,
              some (((flatten l).length + 1 : ℕ) : ℚ)] ::
                ((flatten l ++ flatten r) ++ ext₁)) =
              (pre ++ ([some ((f : ℕ) : ℚ), some v, some 1,
                some (((flatten l).length + 1 : ℕ) : ℚ)] :: flatten l)) ++
                (flatten r ++ ext₁) := by
            simp [List.append_assoc]
          have g₂ : pre ++ ([some ((f : ℕ) : ℚ), some v, some 1,
              some (((flatten l).length + 1 : ℕ) : ℚ)] ::
                ((flatten l ++ flatten r) ++ ext₂)) =
              (pre ++ ([some ((f : ℕ) : ℚ), some v, some 1,
                some (((flatten l).length + 1 : ℕ) : ℚ)] :: flatten l)) ++
                (flatten r ++ ext₂) := by
            simp [List.append_assoc]
          rw [g₁, g₂, hidx]
          exact ihr _ ext₁ ext₂ fuel

/-- The walk over a flattened tree reaches a leaf and returns its stored
value whenever the query point covers every stored feature index and the
fuel exceeds the tree height. -/
lemma treeSearch_flatten_ok (p : List ℚ) :
    ∀ (tr : RTree) (pre ext : List (List EV)) (fuel : ℕ),
      featBound tr p.length = true → height tr + 1 ≤ fuel →
      ∃ w : ℚ, treeSearch (pre ++ (flatten tr ++ ext)) p ((pre.length : ℕ) : ℤ) fuel =
        .ok (some w) := by
  intro tr
  induction tr with
  | leaf v =>
    intro pre ext fuel hfb hfuel
    obtain ⟨fuel, rfl⟩ : ∃ g, fuel = g + 1 := ⟨fuel - 1, by omega⟩
    have e₁ : pre ++ (flatten (RTree.leaf v) ++ ext) =
        pre ++ ([some (-1), some v, none, none] :: ext) := rfl
    rw [e₁]
    exact ⟨v, treeSearch_leaf_step _ _ _ _ v (pyIdx_at_head pre _ ext)⟩
  | node f v l r ihl ihr =>
    intro pre ext fuel hfb hfuel
    obtain ⟨fuel, rfl⟩ : ∃ g, fuel = g + 1 := ⟨fuel - 1, by omega⟩
    simp only [featBound, Bool.and_eq_true, decide_eq_true_eq] at hfb
    obtain ⟨⟨hfp, hfbl⟩, hfbr⟩ := hfb
    simp only [height] at hfuel
    have e₁ : pre ++ (flatten (RTree.node f v l r) ++ ext) =
        pre ++ ([some ((f : ℕ) : ℚ), some v, some 1,
          some (((flatten l).length + 1 : ℕ) : ℚ)] ::
            ((flatten l ++ flatten r) ++ ext)) := rfl
    rw [e₁, treeSearch_node_step _ _ _ _ f v _ _ (pyIdx_at_head pre _ _)]
    have hpx : pyIdx p ((f : ℕ) : ℤ) = some (p.get ⟨f, hfp⟩) := by
      rw [pyIdx_natCast]
      exact List.get?_eq_get hfp
    rw [hpx]
    simp only []
    by_cases hc : p.get ⟨f, hfp⟩ ≤ v
    · rw [if_pos hc, pyint_one]
      have hidx : ((pre.length : ℕ) : ℤ) + 1 =
          (((pre ++ [[some ((f : ℕ) : ℚ), some v, some 1,
            some (((flatten l).length + 1 : ℕ) : ℚ)]]).length : ℕ) : ℤ) := by
        simp [List.length_append]
      have g₁ : pre ++ ([some ((f : ℕ) : ℚ), some v, some 1,
          some (((flatten l).length + 1 : ℕ) : ℚ)] ::
            ((flatten l ++ flatten r) ++ ext)) =
          (pre ++ [[some ((f : ℕ) : ℚ), some v, some 1,
            some (((flatten l).length + 1 : ℕ) : ℚ)]]) ++
            (flatten l ++ (flatten r ++ ext)) := by
        simp [List.append_assoc]
      rw [g₁, hidx]
      exact ihl _ (flatten r ++ ext) fuel hfbl (by
        have h1 := Nat.le_max_left (height l) (height r)
        omega)
    · rw [if_neg hc, pyint_natCast]
      have hidx : ((pre.length : ℕ) : ℤ) + (((flatten l).length + 1 : ℕ) : ℤ) =
          (((pre ++ ([some ((f : ℕ) : ℚ), some v, some 1,
            some (((flatten l).length + 1 : ℕ) : ℚ)] ::
              flatten l)).length : ℕ) : ℤ) := by
        simp [List.length_append, List.length_cons]
      have g₁ : pre ++ ([some ((f : ℕ) : ℚ), some v, some 1,
          some (((flatten l).length + 1 : ℕ) : ℚ)] ::
            ((flatten l ++ flatten r) ++ ext)) =
          (pre ++ ([some ((f : ℕ) : ℚ), some v, some 1,
            some (((flatten l).length + 1 : ℕ) : ℚ)] :: flatten l)) ++
            (flatten r ++ ext) := by
        simp [List.append_assoc]
      rw [g₁, hidx]
      exact ihr _ ext fuel hfbr (by
        have h1 := Nat.le_max_right (height l) (height r)
        omega)

/-! Facts about the mode (Counter most_common) computation. -/

lemma exists_max_image (f : ℚ → ℕ) :
    ∀ (l : List ℚ), l ≠ [] → ∃ x ∈ l, ∀ z ∈ l, f z ≤ f x := by
  intro l
  induction l with
  | nil => intro h; exact absurd rfl h
  | cons a t ih =>
    intro _
    cases t with
    | nil =>
      refine ⟨a, List.mem_cons_self a [], ?_⟩
      intro z hz
      rcases List.mem_cons.mp hz with h1 | h1
      · rw [h1]
      · simp at h1
    | cons b t2 =>
      obtain ⟨x, hx, hmax⟩ := ih (by simp)
      by_cases hc : f a ≤ f x
      · refine ⟨x, List.mem_cons_of_mem a hx, ?_⟩
        intro z hz
        rcases List.mem_cons.mp hz with h1 | h1
        · rw [h1]; exact hc
        · exact hmax z h1
      · refine ⟨a, List.mem_cons_self a _, ?_⟩
        intro z hz
        rcases List.mem_cons.mp hz with h1 | h1
        · rw [h1]
        · exact le_trans (hmax z h1) (le_of_not_le hc)

lemma mode_isSome (l : List ℚ) (hl : l ≠ []) : ∃ m, mode l = some m := by
  obtain ⟨x, hx, hmax⟩ := exists_max_image (fun z => l.count z) l hl
  have h1 : (l.find? (fun x => l.all (fun z => decide (l.count z ≤ l.count x)))).isSome :=
    List.find?_isSome.mpr ⟨x, hx, by
      simp only [List.all_eq_true, decide_eq_true_eq]
      intro z hz
      exact hmax z hz⟩
  exact Option.isSome_iff_exists.mp h1

lemma find?_first_index {α : Type} [DecidableEq α] {p : α → Bool} :
    ∀ (l : List α) (m : α), l.find? p = some m →
      ∀ z ∈ l, p z = true → l.indexOf m ≤ l.indexOf z := by
  intro l
  induction l with
  | nil => intro m h; simp at h
  | cons a t ih =>
    intro m h z hz hpz
    cases hpa : p a with
    | true =>
      rw [List.find?_cons_of_pos _ hpa] at h
      injection h with h1
      subst h1
      simp [List.indexOf_cons_self]
    | false =>
      rw [List.find?_cons_of_neg _ (by simp [hpa])] at h
      have hma : m ≠ a := by
        intro he
        have h2 := List.find?_some h
        rw [he, hpa] at h2
        exact Bool.noConfusion h2
      have hza : z ≠ a := by
        intro he
        rw [he, hpa] at hpz
        exact Bool.noConfusion hpz
      have hz2 : z ∈ t := by
        rcases List.mem_cons.mp hz with h1 | h1
        · exact absurd h1 hza
        · exact h1
      rw [List.indexOf_cons_ne _ hma.symm, List.indexOf_cons_ne _ hza.symm]
      exact Nat.succ_le_succ (ih m h z hz2 hpz)

/-- The value picked by mode: it occurs in the list, its multiplicity is
maximal, and among equally frequent values its first occurrence is
earliest. -/
lemma mode_spec {l : List ℚ} {m : ℚ} (h : mode l = some m) :
    m ∈ l ∧ (∀ z ∈ l, l.count z ≤ l.count m) ∧
      (∀ z ∈ l, l.count z = l.count m → l.indexOf m ≤ l.indexOf z) := by
  have hmem : m ∈ l := List.mem_of_find?_eq_some h
  have hp := List.find?_some h
  have hmax : ∀ z ∈ l, l.count z ≤ l.count m := by
    intro z hz
    have h2 := List.all_eq_true.mp hp z hz
    simpa using h2
  refine ⟨hmem, hmax, ?_⟩
  intro z hz hcount
  apply find?_first_index l m h z hz
  simp only [List.all_eq_true, decide_eq_true_eq]
  intro w hw
  rw [hcount]
  exact hmax w hw

/-! Facts about stacking and batch query. -/

lemma vstack2_ok_elim {a b : Arr} {rows : List (List EV)} (h : vstack2 a b = .ok rows) :
    rows = toTable a ++ toTable b ∧
      ∃ r rs, rows = r :: rs ∧ ∀ row ∈ rs, row.length = r.length := by
  simp only [vstack2] at h
  cases hc : toTable a ++ toTable b with
  | nil => rw [hc] at h; simp at h
  | cons r rs =>
    rw [hc] at h
    simp only [] at h
    by_cases hall : rs.all (fun row => row.length = r.length) = true
    · rw [if_pos hall] at h
      injection h with h1
      refine ⟨h1.symm, r, rs, h1.symm, ?_⟩
      intro row hrow
      have h2 := List.all_eq_true.mp hall row hrow
      simpa using h2
    · rw [if_neg hall] at h
      exact absurd h (by simp)

lemma vstack2_ok_of_len4 {a b : Arr}
    (ha : ∀ r ∈ toTable a, r.length = 4) (hb : ∀ r ∈ toTable b, r.length = 4)
    (hne : toTable a ++ toTable b ≠ []) :
    vstack2 a b = .ok (toTable a ++ toTable b) := by
  simp only [vstack2]
  cases hc : toTable a ++ toTable b with
  | nil => exact absurd hc hne
  | cons r rs =>
    have hlen : ∀ row ∈ r :: rs, row.length = 4 := by
      rw [← hc]
      intro row hrow
      rcases List.mem_append.mp hrow with h1 | h1
      · exact ha row h1
      · exact hb row h1
    have hr : r.length = 4 := hlen r (List.mem_cons_self r rs)
    have hall : rs.all (fun row => row.length = r.length) = true := by
      simp only [List.all_eq_true, decide_eq_true_eq]
      intro row hrow
      rw [hr, hlen row (List.mem_cons_of_mem r hrow)]
    simp only []
    rw [if_pos hall]

lemma query_congr (L1 L2 : Learner) (t1 t2 : List (List EV))
    (h1 : L1.tree = some (.twoD t1)) (h2 : L2.tree = some (.twoD t2))
    (hsearch : ∀ p fuel, treeSearch t2 p 0 fuel = treeSearch t1 p 0 fuel) :
    ∀ ps fuel, query L2 ps fuel = query L1 ps fuel := by
  intro ps
  induction ps with
  | nil => intro fuel; rfl
  | cons p ps ih =>
    intro fuel
    simp only [query]
    rw [h1, h2]
    simp only []
    rw [hsearch p fuel, ih fuel]

lemma buildFuel_leaf (fuel ls : ℕ) (X : List (List ℚ)) (Y : List ℚ)
    (rho : ℕ → ℕ) (k pf : ℕ) (m : ℚ)
    (hm : mode Y = some m)
    (hcond : X.length ≤ ls ∨ (distincts Y).length = 1) :
    buildFuel (fuel + 1) ls X Y rho k pf =
      .ok (.oneD [some (-1), some m, none, none], k) := by
  simp only [buildFuel]
  rw [hm]
  simp only []
  rw [if_pos hcond]

lemma buildFuel_exhaust (fuel ls : ℕ) (X : List (List ℚ)) (Y : List ℚ)
    (rho : ℕ → ℕ) (k pf : ℕ) (m : ℚ) (k₁ : ℕ)
    (hm : mode Y = some m)
    (hcond : ¬(X.length ≤ ls ∨ (distincts Y).length = 1))
    (hs : searchSplit rho X pf k (List.range (X.headD []).length) = .ok (none, k₁)) :
    buildFuel (fuel + 1) ls X Y rho k pf =
      .ok (.oneD [some (-1), some m, none, none], k₁) := by
  simp only [buildFuel]
  rw [hm]
  simp only []
  rw [if_neg hcond, hs]

/-- Modelled from the spec error taxonomy: the UnfittedModelError kind is
the failure of a query attempted with no tree present (in the code, the
TypeError raised by subscripting the absent tree). -/
def isUnfittedModelError : PyErr → Bool
  | .noneSubscript => true
  | _ => false

/-! The claims. -/

/-- C1: for every training set (X, Y) with at least one sample, if the
number of samples is at most leaf_size or every value in Y is identical,
then the builder returns a single leaf row whose stored value is the mode
of Y, with ties among equally frequent values broken in favor of the value
encountered first in Y. -/
theorem c1_leaf_termination (fuel ls k pf : ℕ) (rho : ℕ → ℕ)
    (X : List (List ℚ)) (Y : List ℚ)
    (hfuel : 1 ≤ fuel) (hn : 1 ≤ X.length) (hXY : X.length = Y.length)
    (hcond : X.length ≤ ls ∨ ∀ a ∈ Y, ∀ b ∈ Y, a = b) :
    ∃ m, mode Y = some m ∧
      buildFuel fuel ls X Y rho k pf = .ok (.oneD [some (-1), some m, none, none], k) ∧
      m ∈ Y ∧ (∀ z ∈ Y, Y.count z ≤ Y.count m) ∧
      (∀ z ∈ Y, Y.count z = Y.count m → Y.indexOf m ≤ Y.indexOf z) := by
  have hYne : Y ≠ [] := by
    intro he
    rw [he] at hXY
    simp only [List.length_nil] at hXY
    omega
  obtain ⟨m, hm⟩ := mode_isSome Y hYne
  obtain ⟨fuel, rfl⟩ : ∃ g, fuel = g + 1 := ⟨fuel - 1, by omega⟩
  have hcond2 : X.length ≤ ls ∨ (distincts Y).length = 1 := by
    rcases hcond with h1 | h1
    · exact Or.inl h1
    · exact Or.inr ((distincts_length_eq_one_iff Y hYne).mpr h1)
  obtain ⟨hmem, hmax, htie⟩ := mode_spec hm
  exact ⟨m, hm, buildFuel_leaf fuel ls X Y rho k pf m hm hcond2, hmem, hmax, htie⟩

theorem c1_witness :
    ∃ m, mode [5] = some m ∧
      buildFuel 1 1 [[0]] [5] (fun i => i) 0 0 =
        .ok (.oneD [some (-1), some m, none, none], 0) ∧
      m ∈ [(5 : ℚ)] ∧ (∀ z ∈ [(5 : ℚ)], [(5 : ℚ)].count z ≤ [(5 : ℚ)].count m) ∧
      (∀ z ∈ [(5 : ℚ)], [(5 : ℚ)].count z = [(5 : ℚ)].count m →
        [(5 : ℚ)].indexOf m ≤ [(5 : ℚ)].indexOf z) :=
  c1_leaf_termination 1 1 0 0 (fun i => i) [[0]] [5]
    (by decide) (by decide) (by rfl) (Or.inl (by decide))

/-- C2: a drawn feature and split value are accepted, stopping the search,
exactly when both partitions are non-empty; a search that stops returns an
accepted pair with its non-degenerate partitions; and when the candidate
pool empties without an accepted split the builder returns the single leaf
row holding the mode of Y. -/
theorem c2_split_acceptance :
    (∀ (X : List (List ℚ)) (f : ℕ) (v : ℚ), X ≠ [] →
      (acceptTest (leftMask X f v) = true ↔
        (maskTake (leftMask X f v) X ≠ [] ∧ maskTake (rightMask X f v) X ≠ []))) ∧
    (∀ (rho : ℕ → ℕ) (X : List (List ℚ)) (pf k : ℕ) (pool : List ℕ) (f : ℕ) (v : ℚ)
      (mask rmask : List Bool) (k₂ : ℕ),
      searchSplit rho X pf k pool = .ok (some (f, v, mask, rmask), k₂) →
      mask = leftMask X f v ∧ rmask = rightMask X f v ∧ acceptTest mask = true ∧
        maskTake mask X ≠ [] ∧ maskTake rmask X ≠ []) ∧
    (∀ (fuel ls : ℕ) (X : List (List ℚ)) (Y : List ℚ) (rho : ℕ → ℕ) (k pf : ℕ)
      (m : ℚ) (k₁ : ℕ),
      mode Y = some m →
      ¬(X.length ≤ ls ∨ (distincts Y).length = 1) →
      searchSplit rho X pf k (List.range (X.headD []).length) = .ok (none, k₁) →
      buildFuel (fuel + 1) ls X Y rho k pf =
        .ok (.oneD [some (-1), some m, none, none], k₁)) := by
  refine ⟨?_, ?_, ?_⟩
  · intro X f v hX
    exact acceptTest_iff_partitions X f v hX
  · intro rho X pf k pool f v mask rmask k₂ h
    obtain ⟨hfp, hm, hr, hacc, hpos⟩ := searchSplit_some h
    have hX : X ≠ [] := by
      cases X with
      | nil => simp at hpos
      | cons x xs => simp
    subst hm
    subst hr
    have hparts := (acceptTest_iff_partitions X f v hX).mp hacc
    exact ⟨rfl, rfl, hacc, hparts.1, hparts.2⟩
  · intro fuel ls X Y rho k pf m k₁ hm hcond hs
    exact buildFuel_exhaust fuel ls X Y rho k pf m k₁ hm hcond hs

theorem c2_witness :
    acceptTest (leftMask [[0], [1]] 0 (1/2)) = true ↔
      (maskTake (leftMask [[0], [1]] 0 (1/2)) ([[0], [1]] : List (List ℚ)) ≠ [] ∧
        maskTake (rightMask [[0], [1]] 0 (1/2)) ([[0], [1]] : List (List ℚ)) ≠ []) :=
  c2_split_acceptance.1 [[0], [1]] 0 (1/2) (by simp)

/-- C3: every table produced by a successful build is laid out in
pre-order: it is the flattening of a tree, where each internal row stores
left offset 1 and right offset equal to the row count of its left subtree
plus one, immediately followed by its whole left subtree and then its
whole right subtree. -/
theorem c3_preorder_layout (fuel ls : ℕ) (X : List (List ℚ)) (Y : List ℚ)
    (rho : ℕ → ℕ) (k pf : ℕ) (a : Arr) (k' : ℕ)
    (h : buildFuel fuel ls X Y rho k pf = .ok (a, k')) :
    ∃ tr : RTree, toTable a = flatten tr := by
  obtain ⟨tr, h1, _, _, _⟩ := buildFuel_ok_shape fuel ls X Y rho k pf a k' h
  exact ⟨tr, h1⟩

theorem c3_witness :
    ∃ tr : RTree,
      toTable (.twoD [[some 0, some (1/2), some 1, some 2],
        [some (-1), some 0, none, none],
        [some (-1), some 1, none, none]]) = flatten tr :=
  c3_preorder_layout 3 1 [[0], [1]] [0, 1] (fun i => i) 0 1 _ 3
    (by with_unfolding_all rfl)

/-- C4: for every training set with at least one sample and leaf_size at
least one, a successful build yields a table with at most
2 * num_samples - 1 rows, and the row count is always odd. -/
theorem c4_row_count (fuel ls : ℕ) (X : List (List ℚ)) (Y : List ℚ)
    (rho : ℕ → ℕ) (k pf : ℕ) (a : Arr) (k' : ℕ)
    (hn : 1 ≤ X.length) (hls : 1 ≤ ls)
    (h : buildFuel fuel ls X Y rho k pf = .ok (a, k')) :
    (toTable a).length ≤ 2 * X.length - 1 ∧ Odd (toTable a).length := by
  obtain ⟨tr, h1, _, hnl, _⟩ := buildFuel_ok_shape fuel ls X Y rho k pf a k' h
  have h2 := flatten_length tr
  have h3 := numLeaves_pos tr
  have h4 := hnl hn
  rw [h1]
  constructor
  · omega
  · rw [Nat.odd_iff]
    omega

theorem c4_witness :
    (toTable (Arr.twoD [[some 0, some (1/2), some 1, some 2],
        [some (-1), some 0, none, none],
        [some (-1), some 1, none, none]])).length ≤ 2 * List.length [[(0 : ℚ)], [1]] - 1 ∧
      Odd (toTable (Arr.twoD [[some 0, some (1/2), some 1, some 2],
        [some (-1), some 0, none, none],
        [some (-1), some 1, none, none]])).length :=
  c4_row_count 3 1 [[0], [1]] [0, 1] (fun i => i) 0 1 _ 3
    (by decide) (by decide) (by with_unfolding_all rfl)

/-- C9: the recursive walk over any table satisfying the invariants of a
built tree (a flattened tree whose feature indices fit the query point)
terminates at a leaf within fuel bounded by the tree height plus one, and
for every successful build from at least one sample with leaf_size at
least one the height plus one is bounded by the sample count. -/
theorem c9_query_termination :
    (∀ (tr : RTree) (p : List ℚ) (fuel : ℕ),
      featBound tr p.length = true → height tr + 1 ≤ fuel →
      ∃ w : ℚ, treeSearch (flatten tr) p 0 fuel = .ok (some w)) ∧
    (∀ (fuel ls : ℕ) (X : List (List ℚ)) (Y : List ℚ) (rho : ℕ → ℕ) (k pf : ℕ)
      (a : Arr) (k' : ℕ), 1 ≤ X.length → 1 ≤ ls →
      buildFuel fuel ls X Y rho k pf = .ok (a, k') →
      ∃ tr : RTree, toTable a = flatten tr ∧ height tr + 1 ≤ X.length) := by
  constructor
  · intro tr p fuel hfb hfuel
    obtain ⟨w, hw⟩ := treeSearch_flatten_ok p tr [] [] fuel hfb hfuel
    refine ⟨w, ?_⟩
    have e1 : ([] : List (List EV)) ++ (flatten tr ++ []) = flatten tr := by simp
    have e2 : (((List.length ([] : List (List EV))) : ℕ) : ℤ) = 0 := by simp
    rw [e1, e2] at hw
    exact hw
  · intro fuel ls X Y rho k pf a k' hn hls h
    obtain ⟨tr, h1, _, _, hht⟩ := buildFuel_ok_shape fuel ls X Y rho k pf a k' h
    exact ⟨tr, h1, hht hn hls⟩

theorem c9_witness :
    ∃ w : ℚ, treeSearch (flatten (.node 0 (1/2) (.leaf 7) (.leaf 9))) [0] 0 2 =
      .ok (some w) :=
  c9_query_termination.1 (.node 0 (1/2) (.leaf 7) (.leaf 9)) [0] 2
    (by decide) (by decide)

/-- C8: for a learner owning a tree that satisfies the pre-order layout
invariant of built trees, a further successful fit stacks the newly built
rows below the existing rows, leaves row 0 unchanged, and the query walk
never reaches the appended rows, so every prediction equals the one of the
original tree alone. -/
theorem c8_refit_is_inert (L : Learner) (tr : RTree)
    (X : List (List ℚ)) (Y : List ℚ) (rho : ℕ → ℕ) (k fuel pf : ℕ)
    (L' : Learner) (k' : ℕ)
    (hown : L.tree = some (.twoD (flatten tr)))
    (h : addEvidence L X Y rho k fuel pf = .ok (L', k')) :
    ∃ t2 : List (List EV), t2 ≠ [] ∧ L'.tree = some (.twoD (flatten tr ++ t2)) ∧
      (flatten tr ++ t2).get? 0 = (flatten tr).get? 0 ∧
      ∀ ps qfuel, query L' ps qfuel = query L ps qfuel := by
  simp only [addEvidence] at h
  cases hb : buildFuel fuel L.leaf_size X Y rho k pf with
  | error e => rw [hb] at h; simp at h
  | ok res =>
    obtain ⟨nt, k₁⟩ := res
    rw [hb] at h
    simp only at h
    rw [hown] at h
    simp only at h
    cases hv : vstack2 (.twoD (flatten tr)) nt with
    | error e => rw [hv] at h; simp at h
    | ok rows =>
      rw [hv] at h
      simp only [Except.ok.injEq, Prod.mk.injEq] at h
      obtain ⟨hL, hk⟩ := h
      obtain ⟨hrows, -⟩ := vstack2_ok_elim hv
      have hrows2 : rows = flatten tr ++ toTable nt := hrows
      obtain ⟨tr2, ht2, -, -, -⟩ := buildFuel_ok_shape fuel L.leaf_size X Y rho k pf nt k₁ hb
      have hne2 : toTable nt ≠ [] := by
        rw [ht2]
        exact flatten_ne_nil tr2
      have hL2 : L'.tree = some (.twoD (flatten tr ++ toTable nt)) := by
        rw [← hL]
        simp only [expandIf1D]
        rw [hrows2]
      refine ⟨toTable nt, hne2, hL2, ?_, ?_⟩
      · obtain ⟨r0, rest, he⟩ := List.exists_cons_of_ne_nil (flatten_ne_nil tr)
        rw [he]
        rfl
      · have hsearch : ∀ p qfuel,
            treeSearch (flatten tr ++ toTable nt) p 0 qfuel =
              treeSearch (flatten tr) p 0 qfuel := by
          intro p qfuel
          have h2 := treeSearch_ext p tr [] (toTable nt) [] qfuel
          simp only [List.nil_append, List.append_nil, List.length_nil,
            Nat.cast_zero] at h2
          exact h2
        exact query_congr L L' (flatten tr) (flatten tr ++ toTable nt) hown hL2 hsearch

theorem c8_witness :
    ∃ t2 : List (List EV), t2 ≠ [] ∧
      (Learner.mk 1 (some (Arr.twoD (flatten (RTree.leaf 5) ++
        [[some (-1), some 3, none, none]])))).tree =
          some (.twoD (flatten (RTree.leaf 5) ++ t2)) ∧
      (flatten (RTree.leaf 5) ++ t2).get? 0 = (flatten (RTree.leaf 5)).get? 0 ∧
      ∀ ps qfuel,
        query (Learner.mk 1 (some (Arr.twoD (flatten (RTree.leaf 5) ++
          [[some (-1), some 3, none, none]])))) ps qfuel =
        query (Learner.mk 1 (some (.twoD (flatten (RTree.leaf 5))))) ps qfuel :=
  c8_refit_is_inert (Learner.mk 1 (some (.twoD (flatten (.leaf 5))))) (.leaf 5)
    [[0]] [3] (fun i => i) 0 1 0 _ 0 rfl (by with_unfolding_all rfl)

/-- C10: after every successful fit the learner's stored tree is a
two-dimensional table whose rows all have exactly four columns, the
single-leaf build included (the lone 1-D row is expanded to a 1-by-4
table rather than left flat). -/
theorem c10_fit_yields_2d_table (L : Learner) (X : List (List ℚ)) (Y : List ℚ)
    (rho : ℕ → ℕ) (k fuel pf : ℕ) (L' : Learner) (k' : ℕ)
    (h : addEvidence L X Y rho k fuel pf = .ok (L', k')) :
    ∃ t : List (List EV), L'.tree = some (.twoD t) ∧ t ≠ [] ∧
      ∀ r ∈ t, r.length = 4 := by
  simp only [addEvidence] at h
  cases hb : buildFuel fuel L.leaf_size X Y rho k pf with
  | error e => rw [hb] at h; simp at h
  | ok res =>
    obtain ⟨nt, k₁⟩ := res
    rw [hb] at h
    simp only at h
    obtain ⟨tr2, ht2, -, -, -⟩ := buildFuel_ok_shape fuel L.leaf_size X Y rho k pf nt k₁ hb
    have hnt4 : ∀ r ∈ toTable nt, r.length = 4 := by
      rw [ht2]
      exact flatten_rows_len tr2
    have hntne : toTable nt ≠ [] := by
      rw [ht2]
      exact flatten_ne_nil tr2
    cases hLt : L.tree with
    | none =>
      rw [hLt] at h
      simp only [Except.ok.injEq, Prod.mk.injEq] at h
      obtain ⟨hL, hk⟩ := h
      cases nt with
      | oneD r =>
        refine ⟨[r], ?_, by simp, ?_⟩
        · rw [← hL]
          rfl
        · intro row hrow
          rcases List.mem_cons.mp hrow with h1 | h1
          · rw [h1]
            exact hnt4 r (by simp [toTable])
          · simp at h1
      | twoD t =>
        refine ⟨t, ?_, ?_, ?_⟩
        · rw [← hL]
          rfl
        · intro he
          rw [he] at hntne
          exact hntne rfl
        · intro row hrow
          exact hnt4 row hrow
    | some old =>
      rw [hLt] at h
      simp only at h
      cases hv : vstack2 old nt with
      | error e => rw [hv] at h; simp at h
      | ok rows =>
        rw [hv] at h
        simp only [Except.ok.injEq, Prod.mk.injEq] at h
        obtain ⟨hL, hk⟩ := h
        obtain ⟨hrows, r, rs, hcons, hall⟩ := vstack2_ok_elim hv
        obtain ⟨row0, hrow0⟩ := List.exists_mem_of_ne_nil (toTable nt) hntne
        have hrow0mem : row0 ∈ rows := by
          rw [hrows]
          exact List.mem_append.mpr (Or.inr hrow0)
        have hr4 : r.length = 4 := by
          rw [hcons] at hrow0mem
          rcases List.mem_cons.mp hrow0mem with h1 | h1
          · rw [← h1]
            exact hnt4 row0 hrow0
          · rw [← hall row0 h1]
            exact hnt4 row0 hrow0
        refine ⟨rows, ?_, ?_, ?_⟩
        · rw [← hL]
          rfl
        · rw [hcons]
          simp
        · intro row hrow
          rw [hcons] at hrow
          rcases List.mem_cons.mp hrow with h1 | h1
          · rw [h1]
            exact hr4
          · rw [hall row h1]
            exact hr4

theorem c10_witness :
    ∃ t : List (List EV),
      (Learner.mk 1 (some (Arr.twoD [[some (-1), some 1, none, none]]))).tree =
        some (.twoD t) ∧ t ≠ [] ∧ ∀ r ∈ t, r.length = 4 :=
  c10_fit_yields_2d_table (Learner.mk 1 none) [[0]] [1, 2] (fun i => i) 0 1 0 _ 0
    (by with_unfolding_all rfl)

/-- C5 counterexample: predict on a learner with no tree does not always
fail — with an empty batch of query points the loop body never touches the
absent tree and the call returns an empty result with no error. -/
theorem c5_counterexample : query (Learner.mk 1 none) [] 5 = .ok [] := rfl

/-- C5 amended: when predict is called with at least one query point on a
learner that owns no tree, the call fails synchronously with the
UnfittedModelError kind (the TypeError of subscripting the absent tree). -/
theorem c5_unfitted_error (L : Learner) (ps : List (List ℚ)) (fuel : ℕ)
    (htree : L.tree = none) (hps : ps ≠ []) :
    query L ps fuel = .error .noneSubscript ∧
      isUnfittedModelError .noneSubscript = true := by
  refine ⟨?_, rfl⟩
  cases ps with
  | nil => exact absurd rfl hps
  | cons p ps2 =>
    simp only [query]
    rw [htree]

theorem c5_witness :
    query (Learner.mk 1 none) [[1]] 3 = .error .noneSubscript ∧
      isUnfittedModelError .noneSubscript = true :=
  c5_unfitted_error (Learner.mk 1 none) [[1]] 3 rfl (by simp)

/-- C6 counterexample: a fit call whose X has 1 row and whose Y has 2
values does not fail at all — the sample count is at most leaf_size, so the
builder returns a leaf holding the mode of the full Y and the call
succeeds; no shape validation exists. -/
theorem c6_counterexample :
    addEvidence (Learner.mk 1 none) [[0]] [1, 2] (fun i => i) 0 1 0 =
      .ok (Learner.mk 1 (some (.twoD [[some (-1), some 1, none, none]])), 0) := by
  with_unfolding_all rfl

/-- C6 amended: build performs no shape validation; whenever the number of
X rows is at most leaf_size (so the leaf branch is taken) a call with
mismatched X and Y lengths returns a single leaf row normally instead of
failing with a ShapeMismatchError kind. -/
theorem c6_no_shape_validation (ls k fuel pf : ℕ) (rho : ℕ → ℕ)
    (X : List (List ℚ)) (Y : List ℚ)
    (hmis : X.length ≠ Y.length) (hle : X.length ≤ ls) (hY : Y ≠ [])
    (hfuel : 1 ≤ fuel) :
    ∃ m, mode Y = some m ∧
      addEvidence (Learner.mk ls none) X Y rho k fuel pf =
        .ok (Learner.mk ls (some (.twoD [[some (-1), some m, none, none]])), k) := by
  obtain ⟨m, hm⟩ := mode_isSome Y hY
  obtain ⟨fuel, rfl⟩ : ∃ g, fuel = g + 1 := ⟨fuel - 1, by omega⟩
  refine ⟨m, hm, ?_⟩
  simp only [addEvidence]
  rw [buildFuel_leaf fuel ls X Y rho k pf m hm (Or.inl hle)]
  rfl

theorem c6_witness :
    ∃ m, mode [1, 2] = some m ∧
      addEvidence (Learner.mk 1 none) [[0]] [1, 2] (fun i => i) 0 2 0 =
        .ok (Learner.mk 1 (some (.twoD [[some (-1), some m, none, none]])), 0) :=
  c6_no_shape_validation 1 0 2 0 (fun i => i) [[0]] [1, 2]
    (by decide) (by decide) (by simp) (by decide)

/-- C7 counterexample: building from an empty sample set does not return a
leaf — the mode of the empty Y is computed on entry, and indexing the
empty most_common list raises an IndexError. -/
theorem c7_counterexample :
    buildFuel 1 1 [] [] (fun i => i) 0 0 = .error .indexError := rfl

/-- C7 amended: building a tree from an empty sample set always fails with
an IndexError (most_common(1)[0] on the empty Counter), for every
leaf_size, random stream and fuel; only non-empty degenerate sample sets
yield a single leaf row. -/
theorem c7_empty_build_fails (fuel ls k pf : ℕ) (rho : ℕ → ℕ) :
    buildFuel (fuel + 1) ls [] [] rho k pf = .error .indexError := rfl

theorem c7_witness :
    buildFuel 3 7 [] [] (fun i => i + 1) 2 5 = .error .indexError :=
  c7_empty_build_fails 2 7 2 5 (fun i => i + 1)
